import Mathlib

/-!
Shallow embedding of the generic Merkle-Damgard hash engine of
src/lib/hash/mdx_hash/mdx_hash.h (class MerkleDamgard_Hash) together with a
model of the AlignmentBuffer operations that the engine relies on.  Bytes are
natural numbers; the 64-bit message counter wraps explicitly modulo 2 ^ 64.
The compression capability compress_n is an arbitrary function of the
specification record; the contract that it processes exactly n contiguous
blocks of blockBytes bytes is captured by the Blockwise predicate.  Assertion
failures (BOTAN_ASSERT_NOMSG) are modelled as a none result.
-/

namespace MDx

/-- bit_ops.h is_power_of_2, specialised to Nat. -/
def is_power_of_2 (n : Nat) : Bool :=
  n != 0 && n &&& (n - 1) == 0

/-- The layout constants and operations required by the md_hash_implementation
concept.  The digest type is modelled as a list of machine words; wordBytes
models the byte width of one digest word, used only for serialization of the
final digest. -/
structure MDSpec where
  blockBytes : Nat
  outputBytes : Nat
  ctrBytes : Nat
  bitBig : Bool
  byteBig : Bool
  wordBytes : Nat
  init : List Nat
  compress : List Nat → List Nat → Nat → List Nat

/-- The constraints that the md_hash_implementation concept places on the
layout constants. -/
def MDSpec.WF (md : MDSpec) : Prop :=
  64 ≤ md.blockBytes ∧ is_power_of_2 md.blockBytes = true ∧
    16 ≤ md.outputBytes ∧ 8 ≤ md.ctrBytes ∧ is_power_of_2 md.ctrBytes = true ∧
    md.ctrBytes < md.blockBytes

/-- Engine state: m_digest, m_count and the alignment buffer m_buffer.  The
buffer is represented by its filled contents; the fill cursor is its length. -/
@[ext]
structure MDState where
  digest : List Nat
  count : Nat
  buffer : List Nat
  deriving DecidableEq

/-- The first n chunks of bs consecutive elements of a list. -/
def chunksF (bs : Nat) : Nat → List Nat → List (List Nat)
  | 0, _ => []
  | n + 1, l => l.take bs :: chunksF bs n (l.drop bs)

/-- The canonical blockwise compression function built from a single-block
transform f: fold f over the first n chunks of bs bytes of the data. -/
def iterCompress (bs : Nat) (f : List Nat → List Nat → List Nat)
    (d data : List Nat) (n : Nat) : List Nat :=
  List.foldl f d (chunksF bs n data)

/-- The semantic contract on compress_n: it processes exactly n contiguous
blocks of blockBytes bytes, i.e. it is the iteration of some single-block
transform. -/
def Blockwise (md : MDSpec) : Prop :=
  ∃ f, md.compress = iterCompress md.blockBytes f

/-- Result of AlignmentBuffer.handle_unaligned_data: the completed block when
filling succeeded, the new buffer contents and the remaining input. -/
structure UnalignedResult where
  block? : Option (List Nat)
  buf : List Nat
  rest : List Nat

/-- Modelled from the spec: AlignmentBuffer.handle_unaligned_data
(alignment_buffer.h is not under src).  If the buffer already holds some
bytes, copy as many bytes as needed from the input to fill the buffer to one
full block, and return the completed block if filling succeeded; a completed
block is consumed, leaving the buffer empty. -/
def handleUnalignedData (bs : Nat) (buf inp : List Nat) : UnalignedResult :=
  if buf.length = 0 then ⟨none, buf, inp⟩
  else
    let t := min (bs - buf.length) inp.length
    let buf2 := buf ++ inp.take t
    if buf2.length = bs then ⟨some buf2, [], inp.drop t⟩
    else ⟨none, buf2, inp.drop t⟩

/-- Result of AlignmentBuffer.aligned_data_to_process: the aligned byte range,
the number of full blocks in it, the new buffer contents and the remaining
input. -/
structure AlignedResult where
  aligned : List Nat
  fullBlocks : Nat
  buf : List Nat
  rest : List Nat

/-- Modelled from the spec: AlignmentBuffer.aligned_data_to_process
(alignment_buffer.h is not under src).  When the buffer is in alignment,
return the largest input range whose length is a multiple of bs together with
the count of whole blocks in it; the remainder, shorter than one block, is
absorbed into the buffer. -/
def alignedDataToProcess (bs : Nat) (inp : List Nat) : AlignedResult :=
  let fullBlocks := inp.length / bs
  ⟨inp.take (fullBlocks * bs), fullBlocks, inp.drop (fullBlocks * bs), []⟩

/-- One iteration of the while loop in MerkleDamgard_Hash::update: first let
the buffer complete a pending partial block (compressing it when completed),
then, once in alignment, compress as many whole blocks as the input directly
supplies. -/
def updateBody (md : MDSpec) (s : MDState) (inp : List Nat) :
    MDState × List Nat :=
  let r := handleUnalignedData md.blockBytes s.buffer inp
  let d1 := match r.block? with
    | some blk => md.compress s.digest blk 1
    | none => s.digest
  if r.buf.length = 0 then
    let a := alignedDataToProcess md.blockBytes r.rest
    let d2 := if 0 < a.fullBlocks then md.compress d1 a.aligned a.fullBlocks else d1
    (⟨d2, s.count, a.buf⟩, a.rest)
  else
    (⟨d1, s.count, r.buf⟩, r.rest)

/-- The while loop of MerkleDamgard_Hash::update, with explicit fuel.  The
loop runs while the input slicer is nonempty; one pass of the body consumes
the entire input, so the fuel supplied by update is always sufficient. -/
def updateLoop (md : MDSpec) : Nat → MDState → List Nat → MDState
  | 0, s, _ => s
  | fuel + 1, s, inp =>
    if inp.isEmpty then s
    else
      let p := updateBody md s inp
      updateLoop md fuel p.1 p.2

/-- MerkleDamgard_Hash::update: run the buffering loop over the input, then
add the input length to the 64-bit byte counter (which wraps). -/
def update (md : MDSpec) (s : MDState) (inp : List Nat) : MDState :=
  let s1 := updateLoop md (inp.length + 1) s inp
  ⟨s1.digest, (s.count + inp.length) % 2 ^ 64, s1.buffer⟩

/-- MerkleDamgard_Hash::clear: reinitialize the digest, clear the alignment
buffer and reset the byte counter. -/
def clearState (md : MDSpec) (_s : MDState) : MDState :=
  ⟨md.init, 0, []⟩

/-- The state of a freshly constructed instance (the constructor calls
clear). -/
def initialState (md : MDSpec) : MDState :=
  ⟨md.init, 0, []⟩

/-- The single padding marker byte: 0x80 for big bit endianness, 0x01 for
little bit endianness. -/
def markerByte (md : MDSpec) : Nat :=
  if md.bitBig then 0x80 else 0x01

/-- MerkleDamgard_Hash::append_padding_bit.  The BOTAN_ASSERT_NOMSG that the
buffer is not ready to consume (not exactly full) is modelled as a none
result. -/
def appendPaddingBit (md : MDSpec) (s : MDState) : Option MDState :=
  if s.buffer.length = md.blockBytes then none
  else some ⟨s.digest, s.count, s.buffer ++ [markerByte md]⟩

/-- Modelled from the spec: store_be and store_le of one machine word
(loadstor.h is not under src).  Serializes w bytes of x, most significant
byte first when big is true. -/
def storeWord (big : Bool) (w : Nat) (x : Nat) : List Nat :=
  if big then (List.range w).map (fun i => x / 256 ^ (w - 1 - i) % 256)
  else (List.range w).map (fun i => x / 256 ^ i % 256)

/-- MerkleDamgard_Hash::append_counter_and_finalize.  If the final data block
does not provide enough space for the counter bytes, zero-fill it and
compress it; then zero-fill the last block, overwrite its last 8 bytes with
the 64-bit bit counter serialized per byte endianness, and compress it.  The
BOTAN_ASSERT_NOMSG between the two steps is modelled as a none result. -/
def appendCounterAndFinalize (md : MDSpec) (s : MDState) : Option MDState :=
  let s1 :=
    if md.blockBytes - s.buffer.length < md.ctrBytes then
      ⟨md.compress s.digest
          (s.buffer ++ List.replicate (md.blockBytes - s.buffer.length) 0) 1,
        s.count, ([] : List Nat)⟩
    else s
  if md.blockBytes - s1.buffer.length < md.ctrBytes then none
  else
    let filled := s1.buffer ++ List.replicate (md.blockBytes - s1.buffer.length) 0
    let bitCount := s1.count * 8 % 2 ^ 64
    let lastBlock :=
      filled.take (filled.length - 8) ++ storeWord md.byteBig 8 bitCount
    some ⟨md.compress s1.digest lastBlock 1, s1.count, []⟩

/-- The state transformation of the first two steps of
MerkleDamgard_Hash::final: append_padding_bit then
append_counter_and_finalize. -/
def finalizeState (md : MDSpec) (s : MDState) : Option MDState :=
  (appendPaddingBit md s).bind (fun s1 => appendCounterAndFinalize md s1)

/-- Modelled from the spec: copy_out_vec_be and copy_out_vec_le
(loadstor.h is not under src).  Serialize the digest words per byte
endianness and copy the first outLen bytes. -/
def copyOutVec (big : Bool) (wordBytes outLen : Nat) (words : List Nat) :
    List Nat :=
  ((words.map (storeWord big wordBytes)).flatten).take outLen

/-- MerkleDamgard_Hash::copy_output.  The BOTAN_ASSERT_NOMSG that the output
span is at least output_bytes long is modelled as a none result, produced
before any output byte is written. -/
def copyOutput (md : MDSpec) (digest : List Nat) (outLen : Nat) :
    Option (List Nat) :=
  if outLen < md.outputBytes then none
  else some (copyOutVec md.byteBig md.wordBytes md.outputBytes digest)

/-- MerkleDamgard_Hash::final: append the padding bit, append the counter and
compress the last block, copy the output, then clear.  Returns the digest
bytes and the state after the implicit clear. -/
def mdFinal (md : MDSpec) (s : MDState) (outLen : Nat) :
    Option (List Nat × MDState) :=
  (finalizeState md s).bind (fun s2 =>
    (copyOutput md s2.digest outLen).map (fun out => (out, clearState md s2)))

/-- Hash a list of update inputs starting from a fresh instance. -/
def hashUpdates (md : MDSpec) (ins : List (List Nat)) : MDState :=
  List.foldl (update md) (initialState md) ins

/-- The instrumented capability: same layout constants, but the digest is the
recorded trace of every byte ever passed to compress_n, in order.  The engine
never reads the digest, so the calls made to the capability are identical for
every conforming capability; the trace makes them observable. -/
def recMD (md : MDSpec) : MDSpec :=
  { md with init := [], compress := iterCompress md.blockBytes (fun a b => a ++ b) }

/-- The engine states reachable by construction followed by any sequence of
update calls, clear calls and completed final calls. -/
inductive Reachable (md : MDSpec) : MDState → Prop where
  | init : Reachable md (initialState md)
  | update : ∀ s inp, Reachable md s → Reachable md (update md s inp)
  | clear : ∀ s, Reachable md s → Reachable md (clearState md s)
  | final : ∀ s outLen out s2, Reachable md s →
      mdFinal md s outLen = some (out, s2) → Reachable md s2

/-- A concrete instance satisfying all concept constraints: 64-byte blocks,
8 counter bytes, big endian, with the recording compression capability. -/
def mdT : MDSpec :=
  { blockBytes := 64, outputBytes := 16, ctrBytes := 8, bitBig := true,
    byteBig := true, wordBytes := 1, init := [],
    compress := iterCompress 64 (fun a b => a ++ b) }

/-- A smaller concrete instance (16-byte blocks) for fast evaluation in
closed statements that do not rely on the concept constraints. -/
def mdSmall : MDSpec :=
  { blockBytes := 16, outputBytes := 16, ctrBytes := 8, bitBig := true,
    byteBig := true, wordBytes := 1, init := [],
    compress := iterCompress 16 (fun a b => a ++ b) }

/-- The digest produced by one pass of the update loop body, written out by
cases; proof artifact used to state the loop normal form without fixing a
compression capability. -/
def updDigest (md : MDSpec) (d buf inp : List Nat) : List Nat :=
  if buf.length = 0 then
    if 0 < inp.length / md.blockBytes then
      md.compress d (inp.take (inp.length / md.blockBytes * md.blockBytes))
        (inp.length / md.blockBytes)
    else d
  else if buf.length + inp.length < md.blockBytes then d
  else
    let d1 := md.compress d (buf ++ inp.take (md.blockBytes - buf.length)) 1
    let in1 := inp.drop (md.blockBytes - buf.length)
    if 0 < in1.length / md.blockBytes then
      md.compress d1 (in1.take (in1.length / md.blockBytes * md.blockBytes))
        (in1.length / md.blockBytes)
    else d1

lemma sub_div_mul_eq_mod (m k : Nat) : m - m / k * k = m % k := by
  have h := Nat.div_add_mod m k
  calc m - m / k * k = k * (m / k) + m % k - m / k * k := by rw [h]
    _ = m / k * k + m % k - m / k * k := by rw [Nat.mul_comm]
    _ = m % k := by rw [Nat.add_sub_cancel_left]

lemma chunksF_take (bs n : Nat) (l : List Nat) :
    chunksF bs n (l.take (n * bs)) = chunksF bs n l := by
  induction n generalizing l with
  | zero => rfl
  | succ n ih =>
    simp only [chunksF]
    congr 1
    · rw [List.take_take]
      congr 1
      have : bs ≤ (n + 1) * bs := by nlinarith
      omega
    · rw [List.drop_take]
      have h : (n + 1) * bs - bs = n * bs := by
        have : (n + 1) * bs = n * bs + bs := by ring
        omega
      rw [h]
      exact ih (l.drop bs)

lemma chunksF_add (bs m n : Nat) (l : List Nat) :
    chunksF bs (m + n) l = chunksF bs m l ++ chunksF bs n (l.drop (m * bs)) := by
  induction m generalizing l with
  | zero => simp [chunksF]
  | succ m ih =>
    have h : m + 1 + n = (m + n) + 1 := by omega
    rw [h]
    simp only [chunksF, List.cons_append]
    congr 1
    rw [ih (l.drop bs), List.drop_drop]
    congr 3
    ring

lemma chunksF_append_of_le (bs m : Nat) (l l2 : List Nat)
    (h : m * bs ≤ l.length) :
    chunksF bs m (l ++ l2) = chunksF bs m l := by
  induction m generalizing l with
  | zero => rfl
  | succ m ih =>
    have hle : m * bs + bs ≤ l.length := by nlinarith
    have h0 : bs - l.length = 0 := by omega
    simp only [chunksF]
    congr 1
    · rw [List.take_append_eq_append_take, h0]
      simp
    · rw [List.drop_append_eq_append_drop, h0]
      simp only [List.drop_zero]
      apply ih
      rw [List.length_drop]
      omega

lemma chunksF_flatten (bs n : Nat) (l : List Nat) :
    (chunksF bs n l).flatten = l.take (n * bs) := by
  induction n generalizing l with
  | zero => simp [chunksF]
  | succ n ih =>
    simp only [chunksF, List.flatten_cons, ih]
    have h : (n + 1) * bs = bs + n * bs := by ring
    rw [h, List.take_add]

lemma foldl_append_eq (d : List Nat) (L : List (List Nat)) :
    List.foldl (fun a b => a ++ b) d L = d ++ L.flatten := by
  induction L generalizing d with
  | nil => simp
  | cons x L ih => simp [List.foldl_cons, ih]

lemma storeWord_length (big : Bool) (w x : Nat) :
    (storeWord big w x).length = w := by
  cases big <;> simp [storeWord]

lemma handleUnaligned_zero (bs : Nat) (buf inp : List Nat)
    (hb : buf.length = 0) :
    handleUnalignedData bs buf inp = ⟨none, buf, inp⟩ := by
  simp [handleUnalignedData, hb]

lemma handleUnaligned_small (bs : Nat) (buf inp : List Nat)
    (hb : buf.length ≠ 0) (h : buf.length + inp.length < bs) :
    handleUnalignedData bs buf inp = ⟨none, buf ++ inp, []⟩ := by
  have ht : min (bs - buf.length) inp.length = inp.length := by omega
  have hne : ¬ ((buf ++ inp).length = bs) := by
    simp only [List.length_append]
    omega
  simp only [handleUnalignedData, if_neg hb, ht, List.take_length,
    List.drop_length, if_neg hne]

lemma handleUnaligned_fill (bs : Nat) (buf inp : List Nat)
    (hb : buf.length ≠ 0) (hlt : buf.length < bs)
    (h : bs ≤ buf.length + inp.length) :
    handleUnalignedData bs buf inp =
      ⟨some (buf ++ inp.take (bs - buf.length)), [],
        inp.drop (bs - buf.length)⟩ := by
  have ht : min (bs - buf.length) inp.length = bs - buf.length := by omega
  have heq : (buf ++ inp.take (bs - buf.length)).length = bs := by
    simp only [List.length_append, List.length_take]
    omega
  simp only [handleUnalignedData, if_neg hb, ht, if_pos heq]

/-- Normal form of one pass of the update loop body: the buffer keeps the
remainder of the total data modulo the block size, the counter is untouched,
and the whole input is consumed. -/
lemma updateBody_eq (md : MDSpec) (s : MDState) (inp : List Nat)
    (hbuf : s.buffer.length < md.blockBytes) :
    updateBody md s inp =
      (⟨updDigest md s.digest s.buffer inp, s.count,
        (s.buffer ++ inp).drop
          ((s.buffer.length + inp.length) / md.blockBytes * md.blockBytes)⟩,
       []) := by
  by_cases hb : s.buffer.length = 0
  · have hnil : s.buffer = [] := List.length_eq_zero.mp hb
    have hzero : handleUnalignedData md.blockBytes ([] : List Nat) inp =
        ⟨none, [], inp⟩ := handleUnaligned_zero _ _ _ rfl
    simp [updateBody, hnil, hzero, alignedDataToProcess, updDigest]
  · by_cases hsmall : s.buffer.length + inp.length < md.blockBytes
    · have hbne : (s.buffer ++ inp).length ≠ 0 := by
        simp only [List.length_append]
        omega
      have hq : (s.buffer.length + inp.length) / md.blockBytes = 0 :=
        Nat.div_eq_of_lt hsmall
      simp only [updateBody,
        handleUnaligned_small md.blockBytes s.buffer inp hb hsmall,
        updDigest, if_neg hb, if_pos hsmall, hq, Nat.zero_mul,
        List.drop_zero, List.length_append]
      rw [if_neg (by omega : ¬ (s.buffer.length + inp.length = 0))]
    · have hbig : md.blockBytes ≤ s.buffer.length + inp.length := by omega
      have hdropbs : (s.buffer ++ inp).drop md.blockBytes =
          inp.drop (md.blockBytes - s.buffer.length) := by
        rw [List.drop_append_eq_append_drop,
          List.drop_of_length_le (by omega : s.buffer.length ≤ md.blockBytes)]
        simp
      have hq : (s.buffer.length + inp.length) / md.blockBytes =
          (inp.drop (md.blockBytes - s.buffer.length)).length / md.blockBytes
            + 1 := by
        rw [List.length_drop,
          show s.buffer.length + inp.length =
            (inp.length - (md.blockBytes - s.buffer.length)) + md.blockBytes
            by omega]
        exact Nat.add_div_right _ (by omega)
      simp only [updateBody,
        handleUnaligned_fill md.blockBytes s.buffer inp hb hbuf hbig,
        alignedDataToProcess, updDigest, if_neg hb,
        if_neg (by omega : ¬ (s.buffer.length + inp.length < md.blockBytes)),
        List.length_nil, if_pos rfl]
      refine Prod.ext ?_ rfl
      refine MDState.ext rfl rfl ?_
      show (inp.drop (md.blockBytes - s.buffer.length)).drop
        ((inp.drop (md.blockBytes - s.buffer.length)).length / md.blockBytes
          * md.blockBytes) = _
      rw [hq]
      have hmul : ((inp.drop (md.blockBytes - s.buffer.length)).length
            / md.blockBytes + 1) * md.blockBytes =
          (inp.drop (md.blockBytes - s.buffer.length)).length / md.blockBytes
            * md.blockBytes + md.blockBytes := by ring
      rw [hmul, Nat.add_comm (_ * md.blockBytes) md.blockBytes, ← List.drop_drop,
        hdropbs]

lemma updateLoop_nil (md : MDSpec) (fuel : Nat) (s : MDState) :
    updateLoop md fuel s [] = s := by
  cases fuel <;> simp [updateLoop]

lemma updDigest_nil (md : MDSpec) (d buf : List Nat)
    (hbuf : buf.length < md.blockBytes) :
    updDigest md d buf [] = d := by
  by_cases hb : buf.length = 0
  · simp [updDigest, hb]
  · simp [updDigest, hb, hbuf]

/-- Normal form of update: the counter grows by the input length modulo
2 ^ 64 and the buffer keeps the remainder of the total data modulo the block
size. -/
lemma update_eq (md : MDSpec) (s : MDState) (inp : List Nat)
    (hbuf : s.buffer.length < md.blockBytes) :
    update md s inp =
      ⟨updDigest md s.digest s.buffer inp,
        (s.count + inp.length) % 2 ^ 64,
        (s.buffer ++ inp).drop
          ((s.buffer.length + inp.length) / md.blockBytes * md.blockBytes)⟩ := by
  cases inp with
  | nil =>
    simp [update, updateLoop, updDigest_nil md s.digest s.buffer hbuf,
      Nat.div_eq_of_lt hbuf]
  | cons a as =>
    show update md s (a :: as) = _
    unfold update
    have hloop : updateLoop md ((a :: as).length + 1) s (a :: as) =
        (updateBody md s (a :: as)).1 := by
      show updateLoop md (as.length + 1 + 1) s (a :: as) = _
      rw [updateLoop]
      simp only [List.isEmpty_cons, Bool.false_eq_true, if_false]
      rw [updateBody_eq md s (a :: as) hbuf, updateLoop_nil]
    rw [hloop, updateBody_eq md s (a :: as) hbuf]

lemma update_buffer_length (md : MDSpec) (s : MDState) (inp : List Nat)
    (hbuf : s.buffer.length < md.blockBytes) :
    (update md s inp).buffer.length =
      (s.buffer.length + inp.length) % md.blockBytes := by
  rw [update_eq md s inp hbuf]
  simp only [List.length_drop, List.length_append]
  exact sub_div_mul_eq_mod _ _

lemma chunksF_succ (bs n : Nat) (l : List Nat) :
    chunksF bs (n + 1) l = l.take bs :: chunksF bs n (l.drop bs) := rfl

lemma iterCompress_ite (md : MDSpec) (f : List Nat → List Nat → List Nat)
    (hc : md.compress = iterCompress md.blockBytes f) (d l : List Nat) :
    (if 0 < l.length / md.blockBytes then
        md.compress d (l.take (l.length / md.blockBytes * md.blockBytes))
          (l.length / md.blockBytes)
      else d) =
      List.foldl f d (chunksF md.blockBytes (l.length / md.blockBytes) l) := by
  by_cases hfb : 0 < l.length / md.blockBytes
  · rw [if_pos hfb, hc]
    unfold iterCompress
    rw [chunksF_take]
  · rw [if_neg hfb]
    have h0 : l.length / md.blockBytes = 0 := Nat.eq_zero_of_not_pos hfb
    rw [h0]
    rfl

/-- Under the blockwise contract, one pass of the update loop body folds the
single-block transform over the full blocks of the buffered plus fresh
data. -/
lemma updDigest_blockwise (md : MDSpec) (f : List Nat → List Nat → List Nat)
    (hc : md.compress = iterCompress md.blockBytes f)
    (d buf inp : List Nat) (hbuf : buf.length < md.blockBytes) :
    updDigest md d buf inp =
      List.foldl f d
        (chunksF md.blockBytes ((buf.length + inp.length) / md.blockBytes)
          (buf ++ inp)) := by
  by_cases hb : buf.length = 0
  · have hnil : buf = [] := List.length_eq_zero.mp hb
    subst hnil
    simp only [updDigest, List.length_nil, if_pos rfl, List.nil_append,
      Nat.zero_add]
    exact iterCompress_ite md f hc d inp
  · by_cases hsmall : buf.length + inp.length < md.blockBytes
    · simp only [updDigest, if_neg hb, if_pos hsmall]
      rw [Nat.div_eq_of_lt hsmall]
      rfl
    · have hbig : md.blockBytes ≤ buf.length + inp.length := by omega
      simp only [updDigest, if_neg hb, if_neg hsmall]
      have hq : (buf.length + inp.length) / md.blockBytes =
          (inp.drop (md.blockBytes - buf.length)).length / md.blockBytes
            + 1 := by
        rw [List.length_drop,
          show buf.length + inp.length =
            (inp.length - (md.blockBytes - buf.length)) + md.blockBytes
            by omega]
        exact Nat.add_div_right _ (by omega)
      have htake : (buf ++ inp).take md.blockBytes =
          buf ++ inp.take (md.blockBytes - buf.length) := by
        rw [List.take_append_eq_append_take,
          List.take_of_length_le (by omega : buf.length ≤ md.blockBytes)]
      have hdrop : (buf ++ inp).drop md.blockBytes =
          inp.drop (md.blockBytes - buf.length) := by
        rw [List.drop_append_eq_append_drop,
          List.drop_of_length_le (by omega : buf.length ≤ md.blockBytes)]
        simp
      have hd1 : md.compress d (buf ++ inp.take (md.blockBytes - buf.length)) 1 =
          f d (buf ++ inp.take (md.blockBytes - buf.length)) := by
        rw [hc]
        unfold iterCompress
        rw [chunksF_succ]
        show List.foldl f d [(buf ++ inp.take (md.blockBytes - buf.length)).take
          md.blockBytes] = _
        rw [List.take_of_length_le
          (by simp only [List.length_append, List.length_take]; omega)]
        rfl
      rw [hq, chunksF_succ, htake, hdrop, List.foldl_cons, ← hd1]
      exact iterCompress_ite md f hc _ _

/-- Normal form of update under the blockwise contract. -/
lemma update_blockwise (md : MDSpec) (f : List Nat → List Nat → List Nat)
    (hc : md.compress = iterCompress md.blockBytes f)
    (s : MDState) (inp : List Nat) (hbuf : s.buffer.length < md.blockBytes) :
    update md s inp =
      ⟨List.foldl f s.digest
          (chunksF md.blockBytes
            ((s.buffer.length + inp.length) / md.blockBytes) (s.buffer ++ inp)),
        (s.count + inp.length) % 2 ^ 64,
        (s.buffer ++ inp).drop
          ((s.buffer.length + inp.length) / md.blockBytes * md.blockBytes)⟩ := by
  rw [update_eq md s inp hbuf, updDigest_blockwise md f hc _ _ _ hbuf]

lemma update_digest_bw (md : MDSpec) (f : List Nat → List Nat → List Nat)
    (hc : md.compress = iterCompress md.blockBytes f)
    (s : MDState) (inp : List Nat) (hbuf : s.buffer.length < md.blockBytes) :
    (update md s inp).digest =
      List.foldl f s.digest
        (chunksF md.blockBytes
          ((s.buffer.length + inp.length) / md.blockBytes) (s.buffer ++ inp)) := by
  rw [update_blockwise md f hc s inp hbuf]

lemma update_buffer_eq (md : MDSpec) (s : MDState) (inp : List Nat)
    (hbuf : s.buffer.length < md.blockBytes) :
    (update md s inp).buffer =
      (s.buffer ++ inp).drop
        ((s.buffer.length + inp.length) / md.blockBytes * md.blockBytes) := by
  rw [update_eq md s inp hbuf]

/-- Two consecutive update calls absorb exactly the concatenation of their
inputs: the chunk-boundary independence workhorse. -/
lemma update_append (md : MDSpec) (f : List Nat → List Nat → List Nat)
    (hc : md.compress = iterCompress md.blockBytes f)
    (s : MDState) (a b : List Nat) (hbuf : s.buffer.length < md.blockBytes)
    (hBS : 0 < md.blockBytes) :
    update md (update md s a) b = update md s (a ++ b) := by
  have hbuf2 : (update md s a).buffer.length < md.blockBytes := by
    rw [update_buffer_length md s a hbuf]
    exact Nat.mod_lt _ hBS
  have hlen2 : (update md s a).buffer.length =
      (s.buffer.length + a.length) % md.blockBytes :=
    update_buffer_length md s a hbuf
  have hk1le : (s.buffer.length + a.length) / md.blockBytes * md.blockBytes ≤
      (s.buffer ++ a).length := by
    rw [List.length_append]
    exact Nat.div_mul_le_self _ _
  have hB1b : (update md s a).buffer ++ b =
      (s.buffer ++ a ++ b).drop
        ((s.buffer.length + a.length) / md.blockBytes * md.blockBytes) := by
    rw [update_buffer_eq md s a hbuf]
    conv_rhs => rw [List.drop_append_eq_append_drop]
    rw [Nat.sub_eq_zero_of_le hk1le, List.drop_zero]
  have hK : (s.buffer.length + (a ++ b).length) / md.blockBytes =
      (s.buffer.length + a.length) / md.blockBytes +
        ((s.buffer.length + a.length) % md.blockBytes + b.length) /
          md.blockBytes := by
    rw [List.length_append, ← Nat.add_assoc]
    have e : s.buffer.length + a.length + b.length =
        md.blockBytes * ((s.buffer.length + a.length) / md.blockBytes) +
          ((s.buffer.length + a.length) % md.blockBytes + b.length) := by
      rw [← Nat.add_assoc, Nat.div_add_mod]
    rw [e, Nat.mul_add_div hBS]
  have hsplit : chunksF md.blockBytes
      ((s.buffer.length + (a ++ b).length) / md.blockBytes)
      (s.buffer ++ (a ++ b)) =
      chunksF md.blockBytes ((s.buffer.length + a.length) / md.blockBytes)
        (s.buffer ++ a) ++
      chunksF md.blockBytes
        (((s.buffer.length + a.length) % md.blockBytes + b.length) /
          md.blockBytes)
        ((s.buffer ++ a ++ b).drop
          ((s.buffer.length + a.length) / md.blockBytes * md.blockBytes)) := by
    rw [hK, ← List.append_assoc, chunksF_add,
      chunksF_append_of_le _ _ _ _ hk1le]
  apply MDState.ext
  · rw [update_digest_bw md f hc (update md s a) b hbuf2,
      update_digest_bw md f hc s a hbuf,
      update_digest_bw md f hc s (a ++ b) hbuf, hlen2, hB1b, hsplit,
      List.foldl_append]
  · show ((s.count + a.length) % 2 ^ 64 + b.length) % 2 ^ 64 =
      (s.count + (a ++ b).length) % 2 ^ 64
    rw [List.length_append, Nat.mod_add_mod, Nat.add_assoc]
  · rw [update_buffer_eq md (update md s a) b hbuf2,
      update_buffer_eq md s (a ++ b) hbuf, hlen2, hB1b, List.drop_drop, hK,
      Nat.add_mul, Nat.add_comm
        ((s.buffer.length + a.length) / md.blockBytes * md.blockBytes)
        (((s.buffer.length + a.length) % md.blockBytes + b.length) /
          md.blockBytes * md.blockBytes), List.append_assoc]

lemma update_nil (md : MDSpec) (s : MDState) :
    update md s [] = ⟨s.digest, s.count % 2 ^ 64, s.buffer⟩ := by
  simp [update, updateLoop]

/-- Folding a list of update calls over a state equals one update with the
concatenated input (under the blockwise contract). -/
lemma foldl_update (md : MDSpec) (f : List Nat → List Nat → List Nat)
    (hc : md.compress = iterCompress md.blockBytes f)
    (hBS : 0 < md.blockBytes) :
    ∀ (ms : List (List Nat)) (s : MDState) (a : List Nat),
      s.buffer.length < md.blockBytes →
      List.foldl (update md) (update md s a) ms =
        update md s (a ++ ms.flatten) := by
  intro ms
  induction ms with
  | nil =>
    intro s a _
    rw [List.flatten_nil, List.append_nil, List.foldl_nil]
  | cons b ms ih =>
    intro s a hbuf
    rw [List.foldl_cons, update_append md f hc s a b hbuf hBS, ih s (a ++ b) hbuf,
      List.flatten_cons, List.append_assoc]

/-- Auxiliary projection lemmas for the instrumented capability. -/
lemma recMD_compress_eq (md : MDSpec) :
    (recMD md).compress = iterCompress md.blockBytes (fun a b => a ++ b) := rfl

lemma recMD_blockBytes (md : MDSpec) :
    (recMD md).blockBytes = md.blockBytes := rfl

lemma recMD_ctrBytes (md : MDSpec) :
    (recMD md).ctrBytes = md.ctrBytes := rfl

lemma recMD_byteBig (md : MDSpec) :
    (recMD md).byteBig = md.byteBig := rfl

lemma recMD_compress_one (md : MDSpec) (d blk : List Nat)
    (hlen : blk.length = md.blockBytes) :
    (recMD md).compress d blk 1 = d ++ blk := by
  rw [recMD_compress_eq]
  unfold iterCompress
  rw [chunksF_succ]
  show List.foldl _ d [blk.take md.blockBytes] = _
  rw [← hlen, List.take_length]
  rfl

/-- append_counter_and_finalize when the final data block has no room for the
counter: the current block is zero-filled and compressed, and the counter
lands in a second, fresh block. -/
lemma appendCounter_short (md : MDSpec) (s : MDState)
    (h8 : 8 ≤ md.ctrBytes) (hlt : md.ctrBytes < md.blockBytes)
    (hcond : md.blockBytes - s.buffer.length < md.ctrBytes) :
    appendCounterAndFinalize md s =
      some ⟨md.compress
          (md.compress s.digest
            (s.buffer ++ List.replicate (md.blockBytes - s.buffer.length) 0) 1)
          (List.replicate (md.blockBytes - 8) 0 ++
            storeWord md.byteBig 8 (s.count * 8 % 2 ^ 64)) 1,
        s.count, []⟩ := by
  have hmin : min (md.blockBytes - 8) md.blockBytes = md.blockBytes - 8 := by
    omega
  simp only [appendCounterAndFinalize, if_pos hcond, List.length_nil,
    Nat.sub_zero, List.nil_append,
    if_neg (show ¬ md.blockBytes < md.ctrBytes by omega),
    List.length_replicate, List.take_replicate, hmin]

/-- append_counter_and_finalize when the final data block has room for the
counter: the buffered data is zero-filled and the last 8 bytes replaced by
the serialized bit counter, all in one block. -/
lemma appendCounter_room (md : MDSpec) (s : MDState)
    (h8 : 8 ≤ md.ctrBytes) (hle : s.buffer.length ≤ md.blockBytes)
    (hcond : md.ctrBytes ≤ md.blockBytes - s.buffer.length) :
    appendCounterAndFinalize md s =
      some ⟨md.compress s.digest
          (s.buffer ++
            (List.replicate (md.blockBytes - s.buffer.length - 8) 0 ++
              storeWord md.byteBig 8 (s.count * 8 % 2 ^ 64))) 1,
        s.count, []⟩ := by
  have hnc : ¬ (md.blockBytes - s.buffer.length < md.ctrBytes) := by omega
  have hfl : (s.buffer ++
      List.replicate (md.blockBytes - s.buffer.length) 0).length =
      md.blockBytes := by
    simp only [List.length_append, List.length_replicate]
    omega
  have htk : (s.buffer ++
        List.replicate (md.blockBytes - s.buffer.length) 0).take
        (md.blockBytes - 8) =
      s.buffer ++ List.replicate (md.blockBytes - s.buffer.length - 8) 0 := by
    rw [List.take_append_eq_append_take,
      List.take_of_length_le (by omega : s.buffer.length ≤ md.blockBytes - 8),
      List.take_replicate]
    congr 2
    omega
  simp only [appendCounterAndFinalize, if_neg hnc, hfl, htk,
    List.append_assoc]

/-- The two-phase finalization, no-room case, for the instrumented
capability: two blocks are appended to the trace, the first holding only the
buffered data, the marker and zero padding, the second holding zero padding
and the 8-byte counter field. -/
lemma finalizeState_rec_short (md : MDSpec) (s : MDState)
    (h8 : 8 ≤ md.ctrBytes) (hlt : md.ctrBytes < md.blockBytes)
    (hbuf : s.buffer.length < md.blockBytes)
    (hcond : md.blockBytes - (s.buffer.length + 1) < md.ctrBytes) :
    finalizeState (recMD md) s =
      some ⟨s.digest ++
          (s.buffer ++ markerByte md ::
            List.replicate (md.blockBytes - (s.buffer.length + 1)) 0) ++
          (List.replicate (md.blockBytes - 8) 0 ++
            storeWord md.byteBig 8 (s.count * 8 % 2 ^ 64)),
        s.count, []⟩ := by
  unfold finalizeState appendPaddingBit
  rw [if_neg (show ¬ s.buffer.length = (recMD md).blockBytes from by
    rw [recMD_blockBytes]; omega)]
  show appendCounterAndFinalize (recMD md)
    ⟨s.digest, s.count, s.buffer ++ [markerByte (recMD md)]⟩ = _
  rw [appendCounter_short (recMD md) _ (by rw [recMD_ctrBytes]; omega)
    (by rw [recMD_ctrBytes, recMD_blockBytes]; omega)
    (by simp only [List.length_append, List.length_cons, List.length_nil,
      recMD_blockBytes, recMD_ctrBytes]; omega)]
  have hlen1 : ((s.buffer ++ [markerByte (recMD md)]) ++
      List.replicate ((recMD md).blockBytes -
        (s.buffer ++ [markerByte (recMD md)]).length) 0).length =
      md.blockBytes := by
    simp only [List.length_append, List.length_replicate, List.length_cons,
      List.length_nil, recMD_blockBytes]
    omega
  have hlen2 : (List.replicate ((recMD md).blockBytes - 8) 0 ++
      storeWord (recMD md).byteBig 8
        (s.count * 8 % 2 ^ 64)).length = md.blockBytes := by
    simp only [List.length_append, List.length_replicate, storeWord_length,
      recMD_blockBytes]
    omega
  rw [recMD_compress_one md _ _ hlen1, recMD_compress_one md _ _ hlen2]
  show some _ = some _
  congr 1
  refine MDState.ext ?_ rfl rfl
  show s.digest ++ ((s.buffer ++ [markerByte (recMD md)]) ++
      List.replicate ((recMD md).blockBytes -
        (s.buffer ++ [markerByte (recMD md)]).length) 0) ++ _ = _
  have hm : markerByte (recMD md) = markerByte md := rfl
  have hlc : (s.buffer ++ [markerByte (recMD md)]).length =
      s.buffer.length + 1 := by
    simp
  rw [hlc, hm, recMD_blockBytes, recMD_byteBig,
    List.append_assoc s.buffer, List.singleton_append]

/-- The finalization, room case, for the instrumented capability: one block
is appended to the trace, holding the buffered data, the marker, zero padding
and the 8-byte counter field. -/
lemma finalizeState_rec_room (md : MDSpec) (s : MDState)
    (h8 : 8 ≤ md.ctrBytes)
    (hbuf : s.buffer.length < md.blockBytes)
    (hcond : md.ctrBytes ≤ md.blockBytes - (s.buffer.length + 1)) :
    finalizeState (recMD md) s =
      some ⟨s.digest ++
          (s.buffer ++ markerByte md ::
            (List.replicate (md.blockBytes - (s.buffer.length + 1) - 8) 0 ++
              storeWord md.byteBig 8 (s.count * 8 % 2 ^ 64))),
        s.count, []⟩ := by
  unfold finalizeState appendPaddingBit
  rw [if_neg (show ¬ s.buffer.length = (recMD md).blockBytes from by
    rw [recMD_blockBytes]; omega)]
  show appendCounterAndFinalize (recMD md)
    ⟨s.digest, s.count, s.buffer ++ [markerByte (recMD md)]⟩ = _
  have hlc : (s.buffer ++ [markerByte (recMD md)]).length =
      s.buffer.length + 1 := by
    simp
  rw [appendCounter_room (recMD md) _ (by rw [recMD_ctrBytes]; omega)
    (by rw [hlc, recMD_blockBytes]; omega)
    (by rw [hlc, recMD_blockBytes, recMD_ctrBytes]; omega)]
  have hlen1 : ((s.buffer ++ [markerByte (recMD md)]) ++
      (List.replicate ((recMD md).blockBytes -
          (s.buffer ++ [markerByte (recMD md)]).length - 8) 0 ++
        storeWord (recMD md).byteBig 8 (s.count * 8 % 2 ^ 64))).length =
      md.blockBytes := by
    simp only [List.length_append, List.length_replicate, storeWord_length,
      List.length_cons, List.length_nil, recMD_blockBytes]
    omega
  rw [recMD_compress_one md _ _ hlen1]
  show some _ = some _
  congr 1
  refine MDState.ext ?_ rfl rfl
  show s.digest ++ ((s.buffer ++ [markerByte (recMD md)]) ++ _) = _
  have hm : markerByte (recMD md) = markerByte md := rfl
  rw [hlc, hm, recMD_blockBytes, recMD_byteBig,
    List.append_assoc s.buffer, List.singleton_append]

/-- One update step preserves the trace invariant of the instrumented
capability: trace plus buffer is the absorbed input, the trace length is a
whole number of blocks, the buffer is a partial block and the counter is the
absorbed length modulo 2 ^ 64. -/
lemma update_rec_step (md : MDSpec) (hBS : 0 < md.blockBytes)
    (s : MDState) (a acc : List Nat)
    (h1 : s.digest ++ s.buffer = acc)
    (h2 : s.digest.length % md.blockBytes = 0)
    (h3 : s.buffer.length < md.blockBytes)
    (h4 : s.count = acc.length % 2 ^ 64) :
    (update (recMD md) s a).digest ++ (update (recMD md) s a).buffer =
        acc ++ a ∧
      (update (recMD md) s a).digest.length % md.blockBytes = 0 ∧
      (update (recMD md) s a).buffer.length < md.blockBytes ∧
      (update (recMD md) s a).count = (acc ++ a).length % 2 ^ 64 := by
  have hcrec : (recMD md).compress =
      iterCompress (recMD md).blockBytes (fun x y => x ++ y) := rfl
  have h3' : s.buffer.length < (recMD md).blockBytes := h3
  have hdg := update_digest_bw (recMD md) (fun x y => x ++ y) hcrec s a h3'
  have hbf := update_buffer_eq (recMD md) s a h3'
  rw [foldl_append_eq, chunksF_flatten, recMD_blockBytes] at hdg
  rw [recMD_blockBytes] at hbf
  have hkle : (s.buffer.length + a.length) / md.blockBytes *
      md.blockBytes ≤ (s.buffer ++ a).length := by
    rw [List.length_append]
    exact Nat.div_mul_le_self _ _
  refine ⟨?_, ?_, ?_, ?_⟩
  · rw [hdg, hbf, List.append_assoc, List.take_append_drop,
      ← List.append_assoc, h1]
  · have hmin : min ((s.buffer.length + a.length) / md.blockBytes *
        md.blockBytes) (s.buffer ++ a).length =
        (s.buffer.length + a.length) / md.blockBytes * md.blockBytes :=
      Nat.min_eq_left hkle
    rw [hdg, List.length_append, List.length_take, hmin,
      Nat.add_mul_mod_self_right]
    exact h2
  · rw [update_buffer_length (recMD md) s a h3', recMD_blockBytes]
    exact Nat.mod_lt _ hBS
  · show (s.count + a.length) % 2 ^ 64 = _
    rw [h4, List.length_append, Nat.mod_add_mod]

/-- The trace invariant holds along any fold of update calls. -/
lemma foldl_update_inv (md : MDSpec) (hBS : 0 < md.blockBytes) :
    ∀ (ins : List (List Nat)) (s : MDState) (acc : List Nat),
      s.digest ++ s.buffer = acc →
      s.digest.length % md.blockBytes = 0 →
      s.buffer.length < md.blockBytes →
      s.count = acc.length % 2 ^ 64 →
      (List.foldl (update (recMD md)) s ins).digest ++
          (List.foldl (update (recMD md)) s ins).buffer = acc ++ ins.flatten ∧
        (List.foldl (update (recMD md)) s ins).digest.length %
          md.blockBytes = 0 ∧
        (List.foldl (update (recMD md)) s ins).buffer.length <
          md.blockBytes ∧
        (List.foldl (update (recMD md)) s ins).count =
          (acc ++ ins.flatten).length % 2 ^ 64 := by
  intro ins
  induction ins with
  | nil =>
    intro s acc h1 h2 h3 h4
    simp only [List.foldl_nil, List.flatten_nil, List.append_nil]
    exact ⟨h1, h2, h3, h4⟩
  | cons a ins ih =>
    intro s acc h1 h2 h3 h4
    obtain ⟨g1, g2, g3, g4⟩ := update_rec_step md hBS s a acc h1 h2 h3 h4
    have hrec := ih (update (recMD md) s a) (acc ++ a) g1 g2 g3 g4
    simpa [List.append_assoc] using hrec

/-- The trace invariant for a full update sequence from a fresh instance. -/
lemma hashUpdates_inv (md : MDSpec) (hBS : 0 < md.blockBytes)
    (ins : List (List Nat)) :
    (hashUpdates (recMD md) ins).digest ++
        (hashUpdates (recMD md) ins).buffer = ins.flatten ∧
      (hashUpdates (recMD md) ins).digest.length % md.blockBytes = 0 ∧
      (hashUpdates (recMD md) ins).buffer.length < md.blockBytes ∧
      (hashUpdates (recMD md) ins).count = ins.flatten.length % 2 ^ 64 := by
  have hrec := foldl_update_inv md hBS ins (initialState (recMD md)) []
    rfl (by simp [initialState, recMD]) (by simpa [initialState] using hBS)
    (by simp [initialState])
  simpa using hrec

/-- Inversion of a successful final call: the finalization succeeded, the
output was copied and the returned state is the cleared state. -/
lemma mdFinal_inv (md : MDSpec) (s : MDState) (outLen : Nat)
    (out : List Nat) (s2 : MDState)
    (h : mdFinal md s outLen = some (out, s2)) :
    ∃ sf, finalizeState md s = some sf ∧
      copyOutput md sf.digest outLen = some out ∧ s2 = initialState md := by
  unfold mdFinal at h
  rw [Option.bind_eq_some] at h
  obtain ⟨sf, hF, hmap⟩ := h
  rw [Option.map_eq_some'] at hmap
  obtain ⟨o, hC, ho⟩ := hmap
  refine ⟨sf, hF, ?_, ?_⟩
  · rw [hC]
    exact congrArg some (congrArg Prod.fst ho)
  · exact (congrArg Prod.snd ho).symm

lemma flatten_map_storeWord_length (big : Bool) (w : Nat) (dg : List Nat) :
    ((dg.map (storeWord big w)).flatten).length = w * dg.length := by
  induction dg with
  | nil => simp
  | cons x dg ih =>
    simp only [List.map_cons, List.flatten_cons, List.length_append, ih,
      storeWord_length, List.length_cons]
    ring

lemma copyOutVec_length (big : Bool) (w n : Nat) (dg : List Nat)
    (h : n ≤ w * dg.length) :
    (copyOutVec big w n dg).length = n := by
  unfold copyOutVec
  rw [List.length_take, flatten_map_storeWord_length]
  omega

/-- Every reachable engine state holds a partial block: the alignment buffer
is never full outside of an operation. -/
lemma reachable_buffer_lt (md : MDSpec) (hBS : 0 < md.blockBytes) :
    ∀ s, Reachable md s → s.buffer.length < md.blockBytes := by
  intro s hr
  induction hr with
  | init => simpa [initialState] using hBS
  | update s inp _ ih =>
    rw [update_buffer_length md s inp ih]
    exact Nat.mod_lt _ hBS
  | clear s _ _ => simpa [clearState] using hBS
  | final s outLen out s2 _ hfin _ =>
    obtain ⟨sf, _, _, hs2⟩ := mdFinal_inv md s outLen out s2 hfin
    rw [hs2]
    simpa [initialState] using hBS

/-- Master lemma for the recorded compression trace of a full hash: all
update inputs, then the marker byte, then zero padding, then the 8-byte
counter field, and the total is block aligned. -/
lemma finalize_trace (md : MDSpec) (h8 : 8 ≤ md.ctrBytes)
    (hlt : md.ctrBytes < md.blockBytes) (ins : List (List Nat)) :
    ∃ z, finalizeState (recMD md) (hashUpdates (recMD md) ins) =
        some ⟨ins.flatten ++ markerByte md ::
            (List.replicate z 0 ++
              storeWord md.byteBig 8 (ins.flatten.length * 8 % 2 ^ 64)),
          ins.flatten.length % 2 ^ 64, []⟩ ∧
      (ins.flatten.length + (1 + z + 8)) % md.blockBytes = 0 := by
  have hBS : 0 < md.blockBytes := by omega
  obtain ⟨h1, h2, h3, h4⟩ := hashUpdates_inv md hBS ins
  have hL : ins.flatten.length =
      (hashUpdates (recMD md) ins).digest.length +
        (hashUpdates (recMD md) ins).buffer.length := by
    rw [← h1, List.length_append]
  have hcnt : (hashUpdates (recMD md) ins).count * 8 % 2 ^ 64 =
      ins.flatten.length * 8 % 2 ^ 64 := by
    rw [h4, Nat.mod_mul_mod]
  by_cases hcase : md.blockBytes -
      ((hashUpdates (recMD md) ins).buffer.length + 1) < md.ctrBytes
  · refine ⟨(md.blockBytes -
        ((hashUpdates (recMD md) ins).buffer.length + 1)) +
        (md.blockBytes - 8), ?_, ?_⟩
    · rw [finalizeState_rec_short md _ h8 hlt h3 hcase]
      refine congrArg some (MDState.ext ?_ h4 rfl)
      show _ ++ _ ++ _ = _
      rw [hcnt, ← h1, List.replicate_add]
      simp only [List.append_assoc, List.cons_append]
    · have hsum : ins.flatten.length +
          (1 + ((md.blockBytes -
            ((hashUpdates (recMD md) ins).buffer.length + 1)) +
            (md.blockBytes - 8)) + 8) =
          (hashUpdates (recMD md) ins).digest.length + 2 * md.blockBytes := by
        omega
      rw [hsum, Nat.add_mul_mod_self_right]
      exact h2
  · refine ⟨md.blockBytes -
        ((hashUpdates (recMD md) ins).buffer.length + 1) - 8, ?_, ?_⟩
    · rw [finalizeState_rec_room md _ h8 h3 (by omega)]
      refine congrArg some (MDState.ext ?_ h4 rfl)
      show _ ++ _ = _
      rw [hcnt, ← h1]
      simp only [List.append_assoc, List.cons_append]
    · have hsum : ins.flatten.length +
          (1 + (md.blockBytes -
            ((hashUpdates (recMD md) ins).buffer.length + 1) - 8) + 8) =
          (hashUpdates (recMD md) ins).digest.length + md.blockBytes := by
        omega
      rw [hsum, Nat.add_mod_right]
      exact h2

/-- Claim C1: chunk-boundary independence.  For every byte sequence and every
partition of it into consecutive chunks, calling update once per chunk in
order and then final produces the same digest as calling update once with the
whole sequence and then final.  The Blockwise hypothesis is the compress_n
contract: it processes exactly n contiguous blocks. -/
theorem chunk_boundary_independence (md : MDSpec) (h : md.WF)
    (hbw : Blockwise md) (ms : List (List Nat)) (outLen : Nat) :
    mdFinal md (hashUpdates md ms) outLen =
      mdFinal md (update md (initialState md) ms.flatten) outLen := by
  obtain ⟨f, hc⟩ := hbw
  have hBS : 0 < md.blockBytes := by
    obtain ⟨hbs64, -⟩ := h
    omega
  cases ms with
  | nil =>
    show mdFinal md (initialState md) outLen =
      mdFinal md (update md (initialState md) []) outLen
    rw [update_nil]
    show _ = mdFinal md ⟨md.init, 0 % 2 ^ 64, []⟩ outLen
    rw [Nat.zero_mod]
    rfl
  | cons a ms =>
    show mdFinal md
      (List.foldl (update md) (update md (initialState md) a) ms) outLen = _
    rw [foldl_update md f hc hBS ms (initialState md) a
      (by simpa [initialState] using hBS), List.flatten_cons]

theorem chunk_boundary_independence_w :
    mdFinal mdT (hashUpdates mdT [[1, 2], [3]]) 16 =
      mdFinal mdT
        (update mdT (initialState mdT) (List.flatten [[1, 2], [3]])) 16 :=
  chunk_boundary_independence mdT (by unfold MDSpec.WF; decide)
    ⟨fun a b => a ++ b, rfl⟩ [[1, 2], [3]] 16

/-- Claim C2: conservation of input.  With the recording capability (whose
digest is the concatenation of every byte range ever passed to compress_n, in
call order), any update sequence followed by finalization records exactly the
concatenation of all update inputs followed by the padding generated at
final (one marker byte, zero fill, the 8-byte counter field), and the total
recorded length is a whole number of blocks. -/
theorem conservation_of_input (md : MDSpec) (h : md.WF)
    (ins : List (List Nat)) :
    ∃ z, finalizeState (recMD md) (hashUpdates (recMD md) ins) =
        some ⟨ins.flatten ++ markerByte md ::
            (List.replicate z 0 ++
              storeWord md.byteBig 8 (ins.flatten.length * 8 % 2 ^ 64)),
          ins.flatten.length % 2 ^ 64, []⟩ ∧
      (ins.flatten.length + (1 + z + 8)) % md.blockBytes = 0 := by
  obtain ⟨hbs64, -, -, h8, -, hlt⟩ := h
  exact finalize_trace md h8 hlt ins

theorem conservation_of_input_w :
    ∃ z, finalizeState (recMD mdT) (hashUpdates (recMD mdT) [[1, 2, 3]]) =
        some ⟨List.flatten [[1, 2, 3]] ++ markerByte mdT ::
            (List.replicate z 0 ++
              storeWord mdT.byteBig 8
                ((List.flatten [[1, 2, 3]]).length * 8 % 2 ^ 64)),
          (List.flatten [[1, 2, 3]]).length % 2 ^ 64, []⟩ ∧
      ((List.flatten [[1, 2, 3]]).length + (1 + z + 8)) % mdT.blockBytes = 0 :=
  conservation_of_input mdT (by unfold MDSpec.WF; decide) [[1, 2, 3]]

/-- Claim C3: counter field correctness.  For a message of total length L
absorbed since the last clear, the last 8 bytes of the very last block passed
to compress_n during final (observed through the recording capability) hold
L times 8 reduced modulo 2 ^ 64, serialized per byte_endianness; the field is
always exactly 8 bytes wide regardless of ctr_bytes, and overflow wraps.  The
trace is block aligned, so its last 8 bytes are the last 8 bytes of the final
block. -/
theorem counter_correctness (md : MDSpec) (h : md.WF)
    (ins : List (List Nat)) :
    ∃ s2, finalizeState (recMD md) (hashUpdates (recMD md) ins) = some s2 ∧
      md.blockBytes ≤ s2.digest.length ∧
      s2.digest.length % md.blockBytes = 0 ∧
      (storeWord md.byteBig 8 (ins.flatten.length * 8 % 2 ^ 64)).length = 8 ∧
      s2.digest.drop (s2.digest.length - 8) =
        storeWord md.byteBig 8 (ins.flatten.length * 8 % 2 ^ 64) := by
  obtain ⟨hbs64, -, -, h8, -, hlt⟩ := h
  obtain ⟨z, hfin, hmod⟩ := finalize_trace md h8 hlt ins
  have hlen : (ins.flatten ++ markerByte md ::
      (List.replicate z 0 ++
        storeWord md.byteBig 8 (ins.flatten.length * 8 % 2 ^ 64))).length =
      ins.flatten.length + (1 + z + 8) := by
    simp only [List.length_append, List.length_cons, List.length_replicate,
      storeWord_length]
    omega
  refine ⟨_, hfin, ?_, ?_, storeWord_length _ _ _, ?_⟩
  · show md.blockBytes ≤ (ins.flatten ++ markerByte md ::
      (List.replicate z 0 ++
        storeWord md.byteBig 8 (ins.flatten.length * 8 % 2 ^ 64))).length
    rw [hlen]
    exact Nat.le_of_dvd (by omega) (Nat.dvd_of_mod_eq_zero hmod)
  · show (ins.flatten ++ markerByte md ::
      (List.replicate z 0 ++
        storeWord md.byteBig 8
          (ins.flatten.length * 8 % 2 ^ 64))).length % md.blockBytes = 0
    rw [hlen]
    exact hmod
  · have hsplit : ins.flatten ++ markerByte md ::
        (List.replicate z 0 ++
          storeWord md.byteBig 8 (ins.flatten.length * 8 % 2 ^ 64)) =
        (ins.flatten ++ markerByte md :: List.replicate z 0) ++
          storeWord md.byteBig 8 (ins.flatten.length * 8 % 2 ^ 64) := by
      simp only [List.append_assoc, List.cons_append]
    show (ins.flatten ++ markerByte md ::
      (List.replicate z 0 ++
        storeWord md.byteBig 8 (ins.flatten.length * 8 % 2 ^ 64))).drop _ = _
    rw [hsplit, List.length_append, storeWord_length, Nat.add_sub_cancel]
    exact List.drop_left _ _

theorem counter_correctness_w :
    ∃ s2, finalizeState (recMD mdT) (hashUpdates (recMD mdT) [[5], [6, 7]]) =
        some s2 ∧
      mdT.blockBytes ≤ s2.digest.length ∧
      s2.digest.length % mdT.blockBytes = 0 ∧
      (storeWord mdT.byteBig 8
        ((List.flatten [[5], [6, 7]]).length * 8 % 2 ^ 64)).length = 8 ∧
      s2.digest.drop (s2.digest.length - 8) =
        storeWord mdT.byteBig 8
          ((List.flatten [[5], [6, 7]]).length * 8 % 2 ^ 64) :=
  counter_correctness mdT (by unfold MDSpec.WF; decide) [[5], [6, 7]]

/-- Claim C4: two-phase padding.  During final, after the marker byte is
appended, if the bytes remaining until block alignment are fewer than
ctr_bytes then the engine compresses an extra block holding only the buffered
data, the marker and zero padding (no length field), places the length field
in a fresh block, and so compresses exactly two blocks (observed through the
recording capability: the trace grows by 2 times blockBytes); otherwise it
compresses exactly one block. -/
theorem two_phase_padding (md : MDSpec) (h : md.WF) (s : MDState)
    (hbuf : s.buffer.length < md.blockBytes) :
    ∃ s2, finalizeState (recMD md) s = some s2 ∧
      (md.blockBytes - (s.buffer.length + 1) < md.ctrBytes →
        s2.digest = s.digest ++
            (s.buffer ++ markerByte md ::
              List.replicate (md.blockBytes - (s.buffer.length + 1)) 0) ++
            (List.replicate (md.blockBytes - 8) 0 ++
              storeWord md.byteBig 8 (s.count * 8 % 2 ^ 64)) ∧
        s2.digest.length = s.digest.length + 2 * md.blockBytes) ∧
      (md.ctrBytes ≤ md.blockBytes - (s.buffer.length + 1) →
        s2.digest = s.digest ++
            (s.buffer ++ markerByte md ::
              (List.replicate (md.blockBytes - (s.buffer.length + 1) - 8) 0 ++
                storeWord md.byteBig 8 (s.count * 8 % 2 ^ 64))) ∧
        s2.digest.length = s.digest.length + md.blockBytes) := by
  obtain ⟨hbs64, -, -, h8, -, hlt⟩ := h
  by_cases hcase : md.blockBytes - (s.buffer.length + 1) < md.ctrBytes
  · refine ⟨_, finalizeState_rec_short md s h8 hlt hbuf hcase, ?_, ?_⟩
    · intro _
      refine ⟨rfl, ?_⟩
      show (s.digest ++ _ ++ _).length = _
      simp only [List.length_append, List.length_cons, List.length_replicate,
        storeWord_length]
      omega
    · intro hc2
      omega
  · refine ⟨_, finalizeState_rec_room md s h8 hbuf (by omega), ?_, ?_⟩
    · intro hc2
      omega
    · intro _
      refine ⟨rfl, ?_⟩
      show (s.digest ++ _).length = _
      simp only [List.length_append, List.length_cons, List.length_replicate,
        storeWord_length]
      omega

theorem two_phase_padding_w :
    ∃ s2, finalizeState (recMD mdT)
        ⟨[], 0, List.replicate 60 1⟩ = some s2 ∧
      (mdT.blockBytes -
          ((⟨[], 0, List.replicate 60 1⟩ : MDState).buffer.length + 1) <
          mdT.ctrBytes →
        s2.digest = (⟨[], 0, List.replicate 60 1⟩ : MDState).digest ++
            ((⟨[], 0, List.replicate 60 1⟩ : MDState).buffer ++
              markerByte mdT ::
              List.replicate (mdT.blockBytes -
                ((⟨[], 0, List.replicate 60 1⟩ :
                  MDState).buffer.length + 1)) 0) ++
            (List.replicate (mdT.blockBytes - 8) 0 ++
              storeWord mdT.byteBig 8
                ((⟨[], 0, List.replicate 60 1⟩ : MDState).count * 8 %
                  2 ^ 64)) ∧
        s2.digest.length =
          (⟨[], 0, List.replicate 60 1⟩ : MDState).digest.length +
            2 * mdT.blockBytes) ∧
      (mdT.ctrBytes ≤ mdT.blockBytes -
          ((⟨[], 0, List.replicate 60 1⟩ : MDState).buffer.length + 1) →
        s2.digest = (⟨[], 0, List.replicate 60 1⟩ : MDState).digest ++
            ((⟨[], 0, List.replicate 60 1⟩ : MDState).buffer ++
              markerByte mdT ::
              (List.replicate (mdT.blockBytes -
                  ((⟨[], 0, List.replicate 60 1⟩ :
                    MDState).buffer.length + 1) - 8) 0 ++
                storeWord mdT.byteBig 8
                  ((⟨[], 0, List.replicate 60 1⟩ : MDState).count * 8 %
                    2 ^ 64))) ∧
        s2.digest.length =
          (⟨[], 0, List.replicate 60 1⟩ : MDState).digest.length +
            mdT.blockBytes) :=
  two_phase_padding mdT (by unfold MDSpec.WF; decide)
    ⟨[], 0, List.replicate 60 1⟩ (by decide)

/-- Claim C5: padding marker byte.  As its first step, final appends exactly
one marker byte to the buffered data, of value 0x80 when bit_endianness is
Big and 0x01 when it is Little, leaving the digest state and the counter
unchanged. -/
theorem padding_marker_byte (md : MDSpec) (s : MDState)
    (h : s.buffer.length ≠ md.blockBytes) :
    appendPaddingBit md s =
      some ⟨s.digest, s.count,
        s.buffer ++ [if md.bitBig then 0x80 else 0x01]⟩ := by
  unfold appendPaddingBit markerByte
  rw [if_neg h]

theorem padding_marker_byte_w :
    appendPaddingBit mdSmall (initialState mdSmall) =
      some ⟨(initialState mdSmall).digest, (initialState mdSmall).count,
        (initialState mdSmall).buffer ++
          [if mdSmall.bitBig then 0x80 else 0x01]⟩ :=
  padding_marker_byte mdSmall (initialState mdSmall) (by decide)

/-- Claim C6: reuse after final.  After a successful final call the engine
state (digest state, alignment buffer, byte counter) equals that of a freshly
constructed instance, so any subsequent update and final sequence behaves as
on a new instance. -/
theorem reuse_after_final (md : MDSpec) (s : MDState) (outLen : Nat)
    (out : List Nat) (s2 : MDState)
    (h : mdFinal md s outLen = some (out, s2)) :
    s2 = initialState md := by
  obtain ⟨sf, -, -, hs2⟩ := mdFinal_inv md s outLen out s2 h
  exact hs2

theorem reuse_after_final_w : initialState mdSmall = initialState mdSmall :=
  reuse_after_final mdSmall (initialState mdSmall) 16
    ([128] ++ List.replicate 15 0) (initialState mdSmall) (by decide)

/-- Claim C7: clear semantics.  clear reinitializes the digest state to the
initial constant, empties the alignment buffer and resets the byte counter to
zero; it is total (always succeeds from any state), and hashing a new message
after a clear at any point gives exactly what a fresh instance gives on that
message alone. -/
theorem clear_semantics (md : MDSpec) (s : MDState) (ms : List (List Nat))
    (outLen : Nat) :
    clearState md s = initialState md ∧
      (clearState md s).digest = md.init ∧
      (clearState md s).buffer = [] ∧
      (clearState md s).count = 0 ∧
      mdFinal md (List.foldl (update md) (clearState md s) ms) outLen =
        mdFinal md (hashUpdates md ms) outLen :=
  ⟨rfl, rfl, rfl, rfl, rfl⟩

/-- Claim C8: output buffer contract.  final requires the output span to be
at least output_bytes long; a too-small buffer yields a detectable failure
with no output written at all (never a partial write), and on success exactly
output_bytes bytes of the serialized digest (per byte_endianness) are
written, provided the digest state serializes to at least output_bytes
bytes. -/
theorem output_buffer_contract (md : MDSpec) (s : MDState) (outLen : Nat) :
    (outLen < md.outputBytes → mdFinal md s outLen = none) ∧
      (∀ sf, md.outputBytes ≤ outLen → finalizeState md s = some sf →
        mdFinal md s outLen =
          some (copyOutVec md.byteBig md.wordBytes md.outputBytes sf.digest,
            initialState md)) ∧
      (∀ dg : List Nat, md.outputBytes ≤ md.wordBytes * dg.length →
        (copyOutVec md.byteBig md.wordBytes md.outputBytes dg).length =
          md.outputBytes) := by
  refine ⟨?_, ?_, ?_⟩
  · intro hlt
    unfold mdFinal
    cases hF : finalizeState md s with
    | none => rfl
    | some sf =>
      show (copyOutput md sf.digest outLen).map _ = none
      unfold copyOutput
      rw [if_pos hlt]
      rfl
  · intro sf hle hF
    unfold mdFinal
    rw [hF]
    show (copyOutput md sf.digest outLen).map _ = _
    unfold copyOutput
    rw [if_neg (by omega : ¬ outLen < md.outputBytes)]
    rfl
  · intro dg hdg
    exact copyOutVec_length md.byteBig md.wordBytes md.outputBytes dg hdg

theorem output_buffer_contract_w :
    mdFinal mdSmall (initialState mdSmall) 3 = none :=
  (output_buffer_contract mdSmall (initialState mdSmall) 3).1 (by decide)

/-- Claim C9: buffer-not-full invariant.  In every engine state reachable by
construction, update calls, clear calls and completed final calls, the
alignment buffer holds strictly fewer than block_bytes bytes, so the
assertion at the start of final (before the marker is appended) never
fails. -/
theorem buffer_never_full (md : MDSpec) (h : md.WF) (s : MDState)
    (hr : Reachable md s) : s.buffer.length < md.blockBytes := by
  have hBS : 0 < md.blockBytes := by
    obtain ⟨hbs64, -⟩ := h
    omega
  exact reachable_buffer_lt md hBS s hr

theorem buffer_never_full_w :
    (initialState mdT).buffer.length < mdT.blockBytes :=
  buffer_never_full mdT (by unfold MDSpec.WF; decide) (initialState mdT)
    Reachable.init

/-- Claim C10: empty update is a no-op.  For every engine state (with the
byte counter in its 64-bit range, as the C++ uint64_t representation
guarantees), update with an empty input leaves the digest state, the buffer
and the counter unchanged; the loop body never runs, so the compression
capability is not invoked, which the quantification over every capability
makes visible. -/
theorem empty_update_is_noop (md : MDSpec) (s : MDState)
    (h : s.count < 2 ^ 64) : update md s [] = s := by
  rw [update_nil, Nat.mod_eq_of_lt h]

theorem empty_update_is_noop_w :
    update mdSmall (initialState mdSmall) [] = initialState mdSmall :=
  empty_update_is_noop mdSmall (initialState mdSmall) (by decide)

end MDx
